import Mathlib

/-!
Verification development for the MTWM mixing-plan synthesis pipeline.

The definitions below are a shallow embedding of the Python sources:
  * core/dfmm.py        — factorization, forest construction, P-value propagation
  * core/problem.py     — peer-node discovery, sharing-candidate precomputation,
                          sharing-variable key generation (utils/helpers.py)
  * or_tools_solver.py  — outgoing-volume lookup and the concentration-constraint
                          key parsing used while compiling the CP-SAT model
  * runners/permutation_runner.py — the permutation-sweep batch loop

Python integers are modelled as Int where negative inputs are reachable and as
Nat elsewhere; fallible code returns Option, and a raised exception is modelled
as an error value (Option.none / Except.error).  Unbounded loops are modelled
with an explicit fuel argument chosen large enough that, on the loop variants
actually reachable from the source, the fuel is never exhausted; every lemma
about such a function carries (and discharges) the corresponding fuel bound.
-/

namespace MTWM

/-! ## core/dfmm.py : find_factors_for_sum -/

/-- Mirror of the inner loop `for d in range(max_factor, 1, -1): if n % d == 0`
of find_factors_for_sum.  The result encodes the divisor found minus 2, so a
result some e stands for the divisor e + 2; this makes the lower bound 2 on
every found divisor syntactic.  Searching from the bound downward returns the
largest divisor d of n with 2 <= d <= bound, or none when no such divisor
exists (also when the bound is below 2, where the Python range is empty). -/
def findDivisor2 (n : Nat) : Nat → Option Nat
  | 0 => none
  | 1 => none
  | d + 2 => if n % (d + 2) = 0 then some d else findDivisor2 n (d + 1)

/-- The divisor itself, as the Python loop produces it. -/
def findDivisor (n bound : Nat) : Option Nat :=
  (findDivisor2 n bound).map (· + 2)

/-- Mirror of the `while n > 1` loop of find_factors_for_sum: repeatedly divide
by the largest divisor at most max_factor, collecting the divisors in order;
none models the `return None` taken when no divisor is found.  Each iteration
replaces n by n / d with d >= 2, so n strictly decreases and fuel = n always
suffices (see factorLoopF_fuel_irrelevant below). -/
def factorLoopF (max_factor : Nat) : Nat → Nat → Option (List Nat)
  | 0, n => if n ≤ 1 then some [] else none
  | fuel + 1, n =>
    if n ≤ 1 then some []
    else
      match findDivisor2 n max_factor with
      | none => none
      | some e => (factorLoopF max_factor fuel (n / (e + 2))).map ((e + 2) :: ·)

/-- The factorization loop, entered with sufficient fuel. -/
def factorLoop (max_factor n : Nat) : Option (List Nat) :=
  factorLoopF max_factor n n

/-- The sequence of residual values visited by the `while n > 1` loop
(the initial ratio_sum first, each subsequent quotient after it). -/
def residualsF (max_factor : Nat) : Nat → Nat → List Nat
  | 0, n => [n]
  | fuel + 1, n =>
    if n ≤ 1 then [n]
    else
      match findDivisor2 n max_factor with
      | none => [n]
      | some e => n :: residualsF max_factor fuel (n / (e + 2))

/-- The residuals visited when factoring n under the given bound. -/
def residualsOf (max_factor n : Nat) : List Nat :=
  residualsF max_factor n n

/-- Mirror of `sorted(factors, reverse=True)`. -/
def sortDesc (l : List Nat) : List Nat :=
  List.insertionSort (fun a b => b ≤ a) l

/-- Mirror of find_factors_for_sum (core/dfmm.py).  Python ints are modelled as
Int so that negative inputs are representable; the `if ratio_sum <= 1: return []`
guard keeps the loop itself in the naturals.  A negative or sub-2 max_factor
makes the Python range(max_factor, 1, -1) empty, which toNat reproduces. -/
def find_factors_for_sum (ratio_sum : Int) (max_factor : Int) : Option (List Int) :=
  if ratio_sum ≤ 1 then some []
  else
    match factorLoop max_factor.toNat ratio_sum.toNat with
    | none => none
    | some fs => some ((sortDesc fs).map Int.ofNat)

/-! ## core/dfmm.py : build_dfmm_forest -/

/-- A node identifier (level, index-within-level) inside one tree. -/
abbrev NodeId := Nat × Nat

/-- Round-robin child assignment (`parent_idx = (parent_idx + 1) % num_nodes`):
the children handed to parent k are the below-nodes whose position is
congruent to k modulo the number of parents. -/
def childrenOf (below : List NodeId) (n k : Nat) : List NodeId :=
  (below.enum.filter (fun p => p.1 % n = k)).map (fun p => p.2)

/-- Mirror of `math.ceil(total_inputs / factor) if total_inputs > 0 else 0`. -/
def numNodesAt (total f : Nat) : Nat :=
  if 0 < total then (total + f - 1) / f else 0

/-- The entries (node id, children) created at one level. -/
def mkEntries (l n : Nat) (below : List NodeId) : List (NodeId × List NodeId) :=
  (List.range n).map (fun k => ((l, k), childrenOf below n k))

/-- The number of mixer nodes level l needs: the sum of the reagent remainders
plus the count of child nodes arriving from below, rounded up by the factor. -/
def levelCount (factors : List Nat) (l : Nat) (values : List Nat) (below : List NodeId) : Nat :=
  numNodesAt ((values.map (fun v => v % factors.getD l 0)).sum + below.length)
    (factors.getD l 0)

/-- The entries level l contributes to the tree. -/
def levelEntries (factors : List Nat) (l : Nat) (values : List Nat) (below : List NodeId) :
    List (NodeId × List NodeId) :=
  mkEntries l (levelCount factors l values below) below

/-- Mirror of the `for l in range(num_levels - 1, -1, -1)` loop of
build_dfmm_forest: process level l from the given values and the node ids of
the level below, then continue with the element-wise quotients and the ids
just created.  The returned association list holds every node of the tree with
its children, levels l down to 0. -/
def buildAux (factors : List Nat) : Nat → List Nat → List NodeId → List (NodeId × List NodeId)
  | 0, values, below => levelEntries factors 0 values below
  | l + 1, values, below =>
    levelEntries factors (l + 1) values below ++
      buildAux factors l (values.map (fun v => v / factors.getD (l + 1) 0))
        ((levelEntries factors (l + 1) values below).map (fun e => e.1))

/-- Mirror of build_dfmm_forest for a single target: build levels from the
deepest (len(factors) - 1) up to the root (0), starting from the raw ratios
with no nodes below. -/
def build_dfmm_tree (ratios factors : List Nat) : List (NodeId × List NodeId) :=
  match factors.length with
  | 0 => []
  | l + 1 => buildAux factors l ratios []

/-! ## core/dfmm.py : calculate_p_values_from_structure -/

/-- Mirror of the children lookup in get_p_for_node: the children list stored
for the node id, or the empty list when the id is absent. -/
def lookupChildren (T : List (NodeId × List NodeId)) (id : NodeId) : List NodeId :=
  match T.find? (fun e => e.1 == id) with
  | some e => e.2
  | none => []

/-- Mirror of get_p_for_node: a node with no children gets prod(factors[level:]),
otherwise factor[level] times the maximum P-value of its children.  The
memoized recursion of the source always terminates on built trees because every
child sits one level deeper; fuel models that bounded depth, and the lemma
pFuel_eq_prod below shows the value is the same for every fuel on built
trees, so the fallback at fuel 0 (the childless formula) is never material. -/
def pFuel (factors : List Nat) (T : List (NodeId × List NodeId)) : Nat → NodeId → Nat
  | 0, id => (factors.drop id.1).prod
  | fuel + 1, id =>
    if (lookupChildren T id).isEmpty then (factors.drop id.1).prod
    else
      factors.getD id.1 0 *
        (((lookupChildren T id).map (pFuel factors T fuel)).foldr max 0)

/-- The P-value of a node of a built tree. -/
def p_value (factors : List Nat) (T : List (NodeId × List NodeId)) (id : NodeId) : Nat :=
  pFuel factors T factors.length id

/-- The node ids of a built tree that lie at level 0. -/
def levelZeroIds (T : List (NodeId × List NodeId)) : List NodeId :=
  (T.map (fun e => e.1)).filter (fun id => id.1 == 0)

/-! ## core/problem.py : peer-node discovery and sharing-candidate precomputation -/

/-- A global DFMM node identifier (target index m, level l, node index k). -/
abbrev GNodeId := Nat × Nat × Nat

/-- A peer (R) node as built by _define_peer_mixing_nodes: the two source
DFMM nodes and the common p_value. -/
structure PeerN where
  src_a : GNodeId
  src_b : GNodeId
  p : Nat
deriving DecidableEq, Repr

/-- Mirror of `itertools.combinations(xs, 2)`: all ordered-as-listed pairs. -/
def combinations2 {α : Type} : List α → List (α × α)
  | [] => []
  | x :: xs => (xs.map (fun y => (x, y))) ++ combinations2 xs

/-- Mirror of _define_peer_mixing_nodes.  nodes is the forest node list in
iteration order; pmapO is the per-target p_value map lookup (None when the id
is absent, as `p_value_maps[m].get(...)` yields); factorOf id is
`targets_config[m]["factors"][l]`.  Root-level nodes are skipped, then every
pair with equal (present) p_value that is not leaf-leaf yields a peer node. -/
def discoverPeers (nodes : List GNodeId) (pmapO : GNodeId → Option Nat)
    (factorOf : GNodeId → Nat) : List PeerN :=
  (combinations2 (nodes.filter (fun id => id.2.1 ≠ 0))).filterMap
    (fun ab =>
      match pmapO ab.1, pmapO ab.2 with
      | some pa, some pb =>
        if pa = pb ∧ ¬(pa = factorOf ab.1 ∧ pb = factorOf ab.2) then
          some ⟨ab.1, ab.2, pa⟩
        else none
      | _, _ => none)

/-- A candidate sharing source: a DFMM node or a peer (R) node, the latter
referenced by its index in the peer list (the source writes it ("R", i, 0)). -/
inductive Source where
  | dfmm : GNodeId → Source
  | peer : Nat → Source
deriving DecidableEq, Repr

/-- A default peer node, standing in for Python list indexing. -/
def dfltPeer : PeerN := ⟨(0, 0, 0), (0, 0, 0), 0⟩

/-- The effective level of a source: its own level for a DFMM node, the
deeper of the two source levels for a peer node (as computed in
_precompute_potential_sources_v2). -/
def effLevel (peers : List PeerN) : Source → Nat
  | Source.dfmm id => id.2.1
  | Source.peer i => max ((peers.getD i dfltPeer).src_a.2.1) ((peers.getD i dfltPeer).src_b.2.1)

/-- The p_value of a source as read in _precompute_potential_sources_v2. -/
def srcPValue (pmap : GNodeId → Nat) (peers : List PeerN) : Source → Nat
  | Source.dfmm id => pmap id
  | Source.peer i => (peers.getD i dfltPeer).p

/-- The connection checks of _precompute_potential_sources_v2, in source
order: self-exclusion (DFMM sources only), the level rule, the optional
maximum level difference, and the unit-compatibility rule. -/
def sourcePasses (pmap : GNodeId → Nat) (factorOf : GNodeId → Nat)
    (peers : List PeerN) (maxLevelDiff : Option Nat) (dst : GNodeId) (s : Source) : Bool :=
  (match s with
   | Source.dfmm id => decide (id ≠ dst)
   | Source.peer _ => true) &&
  (decide (dst.2.1 < effLevel peers s) || decide (effLevel peers s = 0)) &&
  (match maxLevelDiff with
   | none => true
   | some d => decide (effLevel peers s ≤ dst.2.1 + d)) &&
  decide ((pmap dst / factorOf dst) % srcPValue pmap peers s = 0)

/-- Mirror of _precompute_potential_sources_v2, read per destination: the
candidate sources of dst are the DFMM nodes followed by the peer nodes,
filtered by sourcePasses (the Python product loop appends sources to
source_map[dst] in exactly this order). -/
def potentialSourcesFor (dests : List GNodeId) (peers : List PeerN)
    (pmap : GNodeId → Nat) (factorOf : GNodeId → Nat) (maxLevelDiff : Option Nat)
    (dst : GNodeId) : List Source :=
  ((dests.map Source.dfmm) ++ (List.range peers.length).map Source.peer).filter
    (sourcePasses pmap factorOf peers maxLevelDiff dst)

/-! ## utils/helpers.py and core/problem.py : sharing-variable dictionary keys

Python strings are modelled as lists of characters, because the sharing-key
bug of the solver lives in string manipulation: the executable mirrors of
str.replace, str.split and int() below follow the Python semantics (replace
and split act on non-overlapping occurrences left to right; int() accepts an
optional sign followed by at least one digit and nothing else, which covers
every string reachable here). -/

/-- A Python string, as its character list. -/
abbrev PyStr := List Char

/-- The decimal rendering of a natural number (an f-string interpolation). -/
def natChars (n : Nat) : PyStr := Nat.toDigits 10 n

/-- Mirror of str.replace, fuelled by the length of the subject string.
An empty pattern never occurs at the call sites. -/
def pyReplaceF (pat rep : PyStr) : Nat → PyStr → PyStr
  | 0, s => s
  | fuel + 1, s =>
    match s with
    | [] => []
    | c :: rest =>
      if pat.isPrefixOf s ∧ pat ≠ [] then rep ++ pyReplaceF pat rep fuel (s.drop pat.length)
      else c :: pyReplaceF pat rep fuel rest

/-- str.replace(s, pat, rep). -/
def pyReplace (s pat rep : PyStr) : PyStr := pyReplaceF pat rep s.length s

/-- Mirror of str.split(sep), fuelled by the length of the subject string;
acc accumulates the current piece in reverse. -/
def pySplitF (sep : PyStr) : Nat → PyStr → PyStr → List PyStr
  | 0, s, acc => [acc.reverse ++ s]
  | fuel + 1, s, acc =>
    match s with
    | [] => [acc.reverse]
    | c :: rest =>
      if sep.isPrefixOf s ∧ sep ≠ [] then
        acc.reverse :: pySplitF sep fuel (s.drop sep.length) []
      else pySplitF sep fuel rest (c :: acc)

/-- str.split(s, sep). -/
def pySplit (s sep : PyStr) : List PyStr := pySplitF sep s.length s []

/-- The numeric value of a decimal digit character, none otherwise. -/
def digitVal (c : Char) : Option Nat :=
  if 48 ≤ c.toNat ∧ c.toNat ≤ 57 then some (c.toNat - 48) else none

/-- The natural number denoted by a nonempty all-digit string, none otherwise. -/
def pyToNat? : PyStr → Option Nat
  | [] => none
  | [c] => digitVal c
  | c :: rest =>
    match digitVal c, pyToNat? rest with
    | some d, some n => some (d * 10 ^ rest.length + n)
    | _, _ => none

/-- Mirror of int(s): an optional minus sign, then digits; none models the
ValueError int() raises on anything else. -/
def pyToInt? (s : PyStr) : Option Int :=
  match s with
  | c :: rest =>
    if c = ('-') then (pyToNat? rest).map (fun n => -(n : Int))
    else (pyToNat? s).map Int.ofNat
  | [] => none

/-- The intra-tree key `"from_" + create_intra_key(l, k)` = "from_l{l}k{k}". -/
def intraKeyName (l k : Nat) : PyStr :=
  "from_l".data ++ natChars l ++ "k".data ++ natChars k

/-- The inter-tree key `"from_" + create_inter_key(m, l, k)` = "from_t{m}_l{l}k{k}"
(helpers.py: KEY_INTER_PREFIX = "t"). -/
def interKeyName (m l k : Nat) : PyStr :=
  "from_t".data ++ natChars m ++ "_l".data ++ natChars l ++ "k".data ++ natChars k

/-- The peer key `"from_" + create_peer_key(i)` = "from_R_idx{i}". -/
def peerKeyName (i : Nat) : PyStr :=
  "from_R_idx".data ++ natChars i

/-- Mirror of _create_sharing_vars_for_node, restricted to the keys of the
inter_sharing_vars dictionary of dst: one key per surviving candidate source
living in another tree (a DFMM node of a different target, or a peer node). -/
def interVarKeysFor (dests : List GNodeId) (peers : List PeerN)
    (pmap : GNodeId → Nat) (factorOf : GNodeId → Nat) (maxLevelDiff : Option Nat)
    (dst : GNodeId) : List PyStr :=
  (potentialSourcesFor dests peers pmap factorOf maxLevelDiff dst).filterMap
    (fun s =>
      match s with
      | Source.dfmm id => if id.1 = dst.1 then none else some (interKeyName id.1 id.2.1 id.2.2)
      | Source.peer i => some (peerKeyName i))

/-- The keys of the intra_sharing_vars dictionary of dst. -/
def intraVarKeysFor (dests : List GNodeId) (peers : List PeerN)
    (pmap : GNodeId → Nat) (factorOf : GNodeId → Nat) (maxLevelDiff : Option Nat)
    (dst : GNodeId) : List PyStr :=
  (potentialSourcesFor dests peers pmap factorOf maxLevelDiff dst).filterMap
    (fun s =>
      match s with
      | Source.dfmm id => if id.1 = dst.1 then some (intraKeyName id.2.1 id.2.2) else none
      | Source.peer _ => none)

/-! ## or_tools_solver.py : outgoing-volume lookup and concentration-key parsing -/

/-- The inter-tree key the solver looks up in _get_outgoing_vars:
`key_inter = f"from_m{m_src}_l{l_src}k{k_src}"`. -/
def solverInterKeyName (m l k : Nat) : PyStr :=
  "from_m".data ++ natChars m ++ "_l".data ++ natChars l ++ "k".data ++ natChars k

/-- The intra-tree key the solver looks up in _get_outgoing_vars:
`key_intra = f"from_l{l_src}k{k_src}"`. -/
def solverIntraKeyName (l k : Nat) : PyStr :=
  "from_l".data ++ natChars l ++ "k".data ++ natChars k

/-- The destinations whose inter_sharing_vars dictionary the solver finds an
entry for when collecting the outgoing volumes of the DFMM source (m, l, k):
mirror of the _get_outgoing_vars branch requiring m_src different from m_dst
and key_inter present among the inter_sharing_vars keys of the destination. -/
def solverOutgoingInterDests (dests : List GNodeId) (peers : List PeerN)
    (pmap : GNodeId → Nat) (factorOf : GNodeId → Nat) (maxLevelDiff : Option Nat)
    (src : GNodeId) : List GNodeId :=
  dests.filter
    (fun dst =>
      decide (src.1 ≠ dst.1) &&
      decide (solverInterKeyName src.1 src.2.1 src.2.2 ∈
        interVarKeysFor dests peers pmap factorOf maxLevelDiff dst))

/-- The destinations the solver finds an intra entry for: mirror of the
_get_outgoing_vars branch requiring m_src equal to m_dst and key_intra
present among the intra_sharing_vars keys of the destination. -/
def solverOutgoingIntraDests (dests : List GNodeId) (peers : List PeerN)
    (pmap : GNodeId → Nat) (factorOf : GNodeId → Nat) (maxLevelDiff : Option Nat)
    (src : GNodeId) : List GNodeId :=
  dests.filter
    (fun dst =>
      decide (src.1 = dst.1) &&
      decide (solverIntraKeyName src.2.1 src.2.2 ∈
        intraVarKeysFor dests peers pmap factorOf maxLevelDiff dst))

/-- Mirror of the inter-key parsing in _set_concentration_constraints:
`m_src_str, lk_src_str = key.replace("from_m", "").split("_l")` followed by
`l_src, k_src = map(int, lk_src_str.split("k"))`; none models the ValueError
raised when a piece is not an integer literal or the unpacking fails. -/
def parseConcInterKey (key : PyStr) : Option (Int × Int × Int) :=
  match pySplit (pyReplace key "from_m".data []) "_l".data with
  | [mStr, lkStr] =>
    match pySplit lkStr "k".data with
    | [lStr, kStr] =>
      match pyToInt? mStr, pyToInt? lStr, pyToInt? kStr with
      | some m, some l, some k => some (m, l, k)
      | _, _, _ => none
    | _ => none
  | _ => none

/-! ## runners/permutation_runner.py : the permutation-sweep loop -/

/-- Mirror of the `for i, combo in enumerate(all_config_combinations)` loop of
PermutationRunner.run: each combination is run in sequence with no exception
handling, so an error raised by one run propagates and the remaining
combinations are never attempted (Except.error carries it out of the loop). -/
def runSweep {α β ε : Type} (runOne : α → Except ε β) : List α → Except ε (List β)
  | [] => Except.ok []
  | c :: rest =>
    match runOne c with
    | Except.error e => Except.error e
    | Except.ok r =>
      match runSweep runOne rest with
      | Except.error e => Except.error e
      | Except.ok rs => Except.ok (r :: rs)

/-- Mirror of save_permutation_summary: the summary is produced from the
collected results only when the loop completes. -/
def sweepSummary {α β ε : Type} (runOne : α → Except ε β) (combos : List α) :
    Except ε (List β) :=
  runSweep runOne combos

/-- A run function that fails on combination 0 and succeeds elsewhere, standing
for one sibling run whose model construction raises. -/
def failOnZero : Nat → Except Unit Nat :=
  fun n => if n = 0 then Except.error () else Except.ok n

/-! ## A concrete two-target run (both targets ratios [1,8,9], factors [3,3,2])

This is the configuration of §8 of the spec, duplicated to make the run
multi-target; it exercises inter-tree sharing.  All the pieces below are the
pipeline functions above applied to this input, so evaluating them evaluates
the embedded source. -/

/-- Level-then-index order on node ids (the iteration order of
_define_base_variables, which sorts levels and node indices). -/
def sortedKeys (T : List (NodeId × List NodeId)) : List NodeId :=
  List.insertionSort (fun a b => a.1 < b.1 ∨ (a.1 = b.1 ∧ a.2 ≤ b.2))
    (T.map (fun e => e.1))

/-- All global node ids of a forest in iteration order. -/
def forestNodeIds (trees : List (List (NodeId × List NodeId))) : List GNodeId :=
  trees.enum.flatMap (fun p => (sortedKeys p.2).map (fun id => (p.1, id.1, id.2)))

/-- The two identical trees of the concrete run. -/
def cfgTrees : List (List (NodeId × List NodeId)) :=
  [build_dfmm_tree [1, 8, 9] [3, 3, 2], build_dfmm_tree [1, 8, 9] [3, 3, 2]]

/-- All DFMM nodes of the concrete run. -/
def cfgDests : List GNodeId := forestNodeIds cfgTrees

/-- The p_value lookup of the concrete run. -/
def cfgPmap : GNodeId → Nat :=
  fun id => p_value [3, 3, 2] (cfgTrees.getD id.1 []) (id.2.1, id.2.2)

/-- The p_value map lookup with the absent-key case of `.get`. -/
def cfgPmapO : GNodeId → Option Nat :=
  fun id =>
    if (id.2.1, id.2.2) ∈ (cfgTrees.getD id.1 []).map (fun e => e.1) then
      some (cfgPmap id)
    else none

/-- The per-node mixer factor of the concrete run. -/
def cfgFactorOf : GNodeId → Nat := fun id => [3, 3, 2].getD id.2.1 0

/-- The peer nodes the concrete run discovers. -/
def cfgPeers : List PeerN := discoverPeers cfgDests cfgPmapO cfgFactorOf

/-- The candidate sources of a destination in the concrete run
(MAX_LEVEL_DIFF is None, its config.py default). -/
def cfgSources (dst : GNodeId) : List Source :=
  potentialSourcesFor cfgDests cfgPeers cfgPmap cfgFactorOf none dst

/-- The inter_sharing_vars keys of a destination in the concrete run. -/
def cfgInterKeys (dst : GNodeId) : List PyStr :=
  interVarKeysFor cfgDests cfgPeers cfgPmap cfgFactorOf none dst

/-- The destinations the solver counts among the inter-tree outgoing volumes
of a source in the concrete run. -/
def cfgSolverInterDests (src : GNodeId) : List GNodeId :=
  solverOutgoingInterDests cfgDests cfgPeers cfgPmap cfgFactorOf none src

end MTWM

namespace MTWM

theorem mldOk_iff (mld : Option Nat) (x y : Nat) :
    ((match mld with
      | none => true
      | some d => decide (x ≤ y + d)) = true) ↔ (∀ d, mld = some d → x ≤ y + d) := by
  cases mld with
  | none => simp
  | some d => simp

theorem sourcePasses_dfmm_iff (pmap : GNodeId → Nat) (factorOf : GNodeId → Nat)
    (peers : List PeerN) (mld : Option Nat) (dst id : GNodeId) :
    (sourcePasses pmap factorOf peers mld dst (Source.dfmm id) = true) ↔
      (id ≠ dst ∧ (dst.2.1 < id.2.1 ∨ id.2.1 = 0) ∧
        (∀ d, mld = some d → id.2.1 ≤ dst.2.1 + d) ∧
        (pmap dst / factorOf dst) % pmap id = 0) := by
  simp only [sourcePasses, effLevel, srcPValue, Bool.and_eq_true, Bool.or_eq_true,
    decide_eq_true_eq, mldOk_iff]
  tauto

theorem sourcePasses_peer_iff (pmap : GNodeId → Nat) (factorOf : GNodeId → Nat)
    (peers : List PeerN) (mld : Option Nat) (dst : GNodeId) (i : Nat) :
    (sourcePasses pmap factorOf peers mld dst (Source.peer i) = true) ↔
      ((dst.2.1 < max (peers.getD i dfltPeer).src_a.2.1 (peers.getD i dfltPeer).src_b.2.1 ∨
          max (peers.getD i dfltPeer).src_a.2.1 (peers.getD i dfltPeer).src_b.2.1 = 0) ∧
        (∀ d, mld = some d →
          max (peers.getD i dfltPeer).src_a.2.1 (peers.getD i dfltPeer).src_b.2.1 ≤
            dst.2.1 + d) ∧
        (pmap dst / factorOf dst) % (peers.getD i dfltPeer).p = 0) := by
  simp only [sourcePasses, effLevel, srcPValue, Bool.and_eq_true, Bool.or_eq_true,
    decide_eq_true_eq, mldOk_iff, Bool.true_and]
  tauto

/-- Claim C2: the precomputed sharing-candidate map contains the ordered pair
(destination, source) exactly when: the source is not the destination itself,
the effective source level (a peer node uses the deeper of its two source
levels) is strictly greater than the destination level or equal to 0, the
effective source level respects MAX_LEVEL_DIFF when that is configured, and
(p_dst / f_dst) % p_src = 0; sources range over the DFMM nodes and the
discovered peer nodes. -/
theorem claim2_sharing_candidates (dests : List GNodeId) (peers : List PeerN)
    (pmap : GNodeId → Nat) (factorOf : GNodeId → Nat) (mld : Option Nat)
    (dst : GNodeId) (hdst : dst ∈ dests) :
    (∀ id : GNodeId,
      Source.dfmm id ∈ potentialSourcesFor dests peers pmap factorOf mld dst ↔
        (id ∈ dests ∧ id ≠ dst ∧ (dst.2.1 < id.2.1 ∨ id.2.1 = 0) ∧
          (∀ d, mld = some d → id.2.1 ≤ dst.2.1 + d) ∧
          (pmap dst / factorOf dst) % pmap id = 0)) ∧
    (∀ i : Nat,
      Source.peer i ∈ potentialSourcesFor dests peers pmap factorOf mld dst ↔
        (i < peers.length ∧
          (dst.2.1 < max (peers.getD i dfltPeer).src_a.2.1
              (peers.getD i dfltPeer).src_b.2.1 ∨
            max (peers.getD i dfltPeer).src_a.2.1 (peers.getD i dfltPeer).src_b.2.1 = 0) ∧
          (∀ d, mld = some d →
            max (peers.getD i dfltPeer).src_a.2.1 (peers.getD i dfltPeer).src_b.2.1 ≤
              dst.2.1 + d) ∧
          (pmap dst / factorOf dst) % (peers.getD i dfltPeer).p = 0)) := by
  constructor
  · intro id
    unfold potentialSourcesFor
    rw [List.mem_filter, sourcePasses_dfmm_iff]
    have hm : Source.dfmm id ∈
        (dests.map Source.dfmm ++ (List.range peers.length).map Source.peer) ↔
        id ∈ dests := by
      rw [List.mem_append]
      constructor
      · rintro (h | h)
        · obtain ⟨x, hx, hxe⟩ := List.mem_map.mp h
          injection hxe with he
          exact he ▸ hx
        · obtain ⟨i, _, hie⟩ := List.mem_map.mp h
          exact absurd hie (by simp)
      · intro h
        exact Or.inl (List.mem_map_of_mem Source.dfmm h)
    rw [hm]
  · intro i
    unfold potentialSourcesFor
    rw [List.mem_filter, sourcePasses_peer_iff]
    have hm : Source.peer i ∈
        (dests.map Source.dfmm ++ (List.range peers.length).map Source.peer) ↔
        i < peers.length := by
      rw [List.mem_append]
      constructor
      · rintro (h | h)
        · obtain ⟨x, _, hxe⟩ := List.mem_map.mp h
          exact absurd hxe (by simp)
        · obtain ⟨j, hj, hje⟩ := List.mem_map.mp h
          injection hje with he
          exact he ▸ List.mem_range.mp hj
      · intro h
        exact Or.inr (List.mem_map_of_mem Source.peer (List.mem_range.mpr h))
    rw [hm]

/-- Witness for claim C2 on the concrete two-target run: destination (0,1,0)
receives the inter-tree source (1,2,0) (level 2 > 1 and 2 divides 6/3 = 2),
and does not receive the peer node 0 (effective level 1, not deeper than 1). -/
theorem claim2_witness :
    Source.dfmm (1, 2, 0) ∈
      potentialSourcesFor cfgDests cfgPeers cfgPmap cfgFactorOf none (0, 1, 0) ∧
    ¬ Source.peer 0 ∈
      potentialSourcesFor cfgDests cfgPeers cfgPmap cfgFactorOf none (0, 1, 0) := by
  constructor
  · apply ((claim2_sharing_candidates cfgDests cfgPeers cfgPmap cfgFactorOf none (0, 1, 0)
      (by decide)).1 (1, 2, 0)).mpr
    refine ⟨by decide, by decide, by decide, ?_, by decide⟩
    intro d h
    exact absurd h (by simp)
  · intro hcon
    have h := ((claim2_sharing_candidates cfgDests cfgPeers cfgPmap cfgFactorOf none (0, 1, 0)
      (by decide)).2 0).mp hcon
    have h2 := h.2.1
    revert h2
    decide

theorem countP_eq_decide_mem {α : Type} [DecidableEq α] :
    ∀ (xs : List α), xs.Nodup → ∀ b : α,
      xs.countP (fun y => decide (y = b)) = if b ∈ xs then 1 else 0 := by
  intro xs
  induction xs with
  | nil => intro _ b; simp
  | cons x t ih =>
    intro hnd b
    rw [List.nodup_cons] at hnd
    rw [List.countP_cons, ih hnd.2 b]
    by_cases hxb : x = b
    · subst hxb
      simp [hnd.1]
    · have hbx : ¬ b = x := fun h => hxb h.symm
      simp [hxb, hbx, List.mem_cons]

theorem combinations2_mem {α : Type} :
    ∀ (l : List α) (x y : α), (x, y) ∈ combinations2 l → x ∈ l ∧ y ∈ l := by
  intro l
  induction l with
  | nil => intro x y h; cases h
  | cons z t ih =>
    intro x y h
    simp only [combinations2] at h
    rcases List.mem_append.mp h with h1 | h2
    · obtain ⟨w, hw, hweq⟩ := List.mem_map.mp h1
      injection hweq with he1 he2
      subst he1
      subst he2
      exact ⟨List.mem_cons_self z t, List.mem_cons_of_mem z hw⟩
    · obtain ⟨hx, hy⟩ := ih x y h2
      exact ⟨List.mem_cons_of_mem z hx, List.mem_cons_of_mem z hy⟩

theorem countP_pairs_left {α : Type} (x : α) (xs : List α) (P : α × α → Bool) :
    (xs.map (fun y => (x, y))).countP P = xs.countP (fun y => P (x, y)) := by
  rw [List.countP_map]
  rfl

theorem combinations2_countP {α : Type} [DecidableEq α] :
    ∀ (l : List α), l.Nodup → ∀ a b : α, a ≠ b →
      (combinations2 l).countP (fun xy => decide (xy = (a, b) ∨ xy = (b, a))) =
        if a ∈ l ∧ b ∈ l then 1 else 0 := by
  intro l
  induction l with
  | nil => intro _ a b _; simp [combinations2]
  | cons x xs ih =>
    intro hnd a b hab
    rw [List.nodup_cons] at hnd
    simp only [combinations2, List.countP_append]
    rw [countP_pairs_left, ih hnd.2 a b hab]
    by_cases hxa : x = a
    · subst hxa
      have hfun : (fun y => (fun xy : α × α => decide (xy = (x, b) ∨ xy = (b, x))) (x, y)) =
          fun y => decide (y = b) := by
        funext y
        apply decide_eq_decide.mpr
        constructor
        · rintro (h | h)
          · injection h with h1 h2
          · injection h with h1 h2
            exact absurd h1 hab
        · rintro rfl
          exact Or.inl rfl
      rw [hfun, countP_eq_decide_mem xs hnd.2 b]
      have hanotxs : (if x ∈ xs ∧ b ∈ xs then 1 else 0) = 0 := by
        simp [hnd.1]
      rw [hanotxs]
      simp only [List.mem_cons]
      by_cases hbxs : b ∈ xs
      · simp [hbxs]
      · have hbx : ¬ b = x := fun h => hab h.symm
        simp [hbxs, hbx]
    · by_cases hxb : x = b
      · subst hxb
        have hfun : (fun y => (fun xy : α × α => decide (xy = (a, x) ∨ xy = (x, a))) (x, y)) =
            fun y => decide (y = a) := by
          funext y
          apply decide_eq_decide.mpr
          constructor
          · rintro (h | h)
            · injection h with h1 h2
              exact absurd h1 hxa
            · injection h with h1 h2
          · rintro rfl
            exact Or.inr rfl
        rw [hfun, countP_eq_decide_mem xs hnd.2 a]
        have hbnotxs : (if a ∈ xs ∧ x ∈ xs then 1 else 0) = 0 := by
          simp [hnd.1]
        rw [hbnotxs]
        simp only [List.mem_cons]
        by_cases haxs : a ∈ xs
        · simp [haxs, hxa]
        · have hax : ¬ a = x := fun h => hxa h.symm
          simp [haxs, hax]
      · have hfun : (fun y => (fun xy : α × α => decide (xy = (a, b) ∨ xy = (b, a))) (x, y)) =
            fun _ => false := by
          funext y
          simp only [decide_eq_false_iff_not]
          rintro (h | h)
          · injection h with h1 h2
            exact hxa h1
          · injection h with h1 h2
            exact hxb h1
        rw [hfun]
        simp only [List.countP_false, Nat.zero_add, List.mem_cons]
        have hax : ¬ a = x := fun h => hxa h.symm
        have hbx : ¬ b = x := fun h => hxb h.symm
        simp [hax, hbx]

theorem countP_filterMap {α β : Type} (f : α → Option β) (q : β → Bool) :
    ∀ l : List α,
      (l.filterMap f).countP q = l.countP (fun x => ((f x).map q).getD false) := by
  intro l
  induction l with
  | nil => simp
  | cons x t ih =>
    rw [List.filterMap_cons]
    cases hfx : f x with
    | none =>
      rw [List.countP_cons, ih, hfx]
      simp
    | some b =>
      rw [List.countP_cons, List.countP_cons, ih, hfx]
      simp

theorem option_map_getD_true {β : Type} (o : Option β) (q : β → Bool) :
    ((o.map q).getD false = true) ↔ ∃ b, o = some b ∧ q b = true := by
  cases o <;> simp

theorem discoverPeers_mem_aux (pmapO : GNodeId → Option Nat) (factorOf : GNodeId → Nat)
    (x y : GNodeId) (pr : PeerN) :
    ((match pmapO x, pmapO y with
      | some pa, some pb =>
        if pa = pb ∧ ¬(pa = factorOf x ∧ pb = factorOf y) then
          some (⟨x, y, pa⟩ : PeerN)
        else none
      | _, _ => none) = some pr) ↔
      (∃ v, pmapO x = some v ∧ pmapO y = some v ∧
        ¬(v = factorOf x ∧ v = factorOf y) ∧ pr = ⟨x, y, v⟩) := by
  rcases hx : pmapO x with _ | pa
  · simp
  · rcases hy : pmapO y with _ | pb
    · simp
    · show (if pa = pb ∧ ¬(pa = factorOf x ∧ pb = factorOf y) then
          some (⟨x, y, pa⟩ : PeerN) else none) = some pr ↔
        ∃ v, some pa = some v ∧ some pb = some v ∧
          ¬(v = factorOf x ∧ v = factorOf y) ∧ pr = ⟨x, y, v⟩
      by_cases hc : pa = pb ∧ ¬(pa = factorOf x ∧ pb = factorOf y)
      · rw [if_pos hc]
        constructor
        · intro h
          injection h with h2
          refine ⟨pa, rfl, ?_, ?_, h2.symm⟩
          · rw [hc.1]
          · intro hcon
            exact hc.2 ⟨hcon.1, hc.1.symm.trans hcon.2⟩
        · rintro ⟨v, hv1, hv2, hv3, rfl⟩
          injection hv1 with h1
          injection hv2 with h2
          subst h1
          rfl
      · rw [if_neg hc]
        constructor
        · intro h
          cases h
        · rintro ⟨v, hv1, hv2, hv3, rfl⟩
          injection hv1 with h1
          injection hv2 with h2
          subst h1
          subst h2
          exact absurd ⟨rfl, hv3⟩ hc

/-- Claim C7: peer-node discovery creates exactly one PeerNode for every
unordered pair of distinct forest nodes in which neither node is at level 0,
both have the same (present) p_value, and not both are leaves
(p_value = factor); moreover no created PeerNode has two leaf sources and
none references a level-0 node. -/
theorem claim7_peer_discovery (nodes : List GNodeId) (pmapO : GNodeId → Option Nat)
    (factorOf : GNodeId → Nat) (hnd : nodes.Nodup) :
    (∀ a b : GNodeId, a ∈ nodes → b ∈ nodes → a ≠ b →
      (discoverPeers nodes pmapO factorOf).countP
          (fun pr => decide ((pr.src_a = a ∧ pr.src_b = b) ∨
            (pr.src_a = b ∧ pr.src_b = a))) =
        if a.2.1 ≠ 0 ∧ b.2.1 ≠ 0 ∧
            (∃ v, pmapO a = some v ∧ pmapO b = some v ∧
              ¬(v = factorOf a ∧ v = factorOf b)) then 1 else 0) ∧
    (∀ pr ∈ discoverPeers nodes pmapO factorOf,
      pr.src_a.2.1 ≠ 0 ∧ pr.src_b.2.1 ≠ 0 ∧
        ¬(pr.p = factorOf pr.src_a ∧ pr.p = factorOf pr.src_b)) := by
  have hnr : (nodes.filter (fun id => id.2.1 ≠ 0)).Nodup := hnd.filter _
  constructor
  · intro a b ha hb hab
    unfold discoverPeers
    rw [countP_filterMap]
    have hpoint : ∀ ab ∈ combinations2 (nodes.filter (fun id => id.2.1 ≠ 0)),
        ((((match pmapO ab.1, pmapO ab.2 with
            | some pa, some pb =>
              if pa = pb ∧ ¬(pa = factorOf ab.1 ∧ pb = factorOf ab.2) then
                some (⟨ab.1, ab.2, pa⟩ : PeerN)
              else none
            | _, _ => none).map
            (fun pr : PeerN => decide ((pr.src_a = a ∧ pr.src_b = b) ∨
              (pr.src_a = b ∧ pr.src_b = a)))).getD false) = true ↔
          ((∃ v, pmapO ab.1 = some v ∧ pmapO ab.2 = some v ∧
            ¬(v = factorOf ab.1 ∧ v = factorOf ab.2)) ∧
            (ab = (a, b) ∨ ab = (b, a)))) := by
      intro ab _
      rw [option_map_getD_true]
      constructor
      · rintro ⟨pr, hpr, hq⟩
        obtain ⟨v, hv1, hv2, hv3, rfl⟩ :=
          (discoverPeers_mem_aux pmapO factorOf ab.1 ab.2 pr).mp hpr
        rw [decide_eq_true_eq] at hq
        refine ⟨⟨v, hv1, hv2, hv3⟩, ?_⟩
        rcases hq with ⟨h1, h2⟩ | ⟨h1, h2⟩
        · left
          rw [← h1, ← h2]
        · right
          rw [← h1, ← h2]
      · rintro ⟨⟨v, hv1, hv2, hv3⟩, hm⟩
        refine ⟨⟨ab.1, ab.2, v⟩,
          (discoverPeers_mem_aux pmapO factorOf ab.1 ab.2 _).mpr
            ⟨v, hv1, hv2, hv3, rfl⟩, ?_⟩
        rw [decide_eq_true_eq]
        rcases hm with rfl | rfl
        · exact Or.inl ⟨rfl, rfl⟩
        · exact Or.inr ⟨rfl, rfl⟩
    by_cases hC : a.2.1 ≠ 0 ∧ b.2.1 ≠ 0 ∧
        (∃ v, pmapO a = some v ∧ pmapO b = some v ∧
          ¬(v = factorOf a ∧ v = factorOf b))
    · rw [if_pos hC]
      have hcong : ∀ ab ∈ combinations2 (nodes.filter (fun id => id.2.1 ≠ 0)),
          ((((match pmapO ab.1, pmapO ab.2 with
              | some pa, some pb =>
                if pa = pb ∧ ¬(pa = factorOf ab.1 ∧ pb = factorOf ab.2) then
                  some (⟨ab.1, ab.2, pa⟩ : PeerN)
                else none
              | _, _ => none).map
              (fun pr : PeerN => decide ((pr.src_a = a ∧ pr.src_b = b) ∨
                (pr.src_a = b ∧ pr.src_b = a)))).getD false) = true ↔
            (decide (ab = (a, b) ∨ ab = (b, a)) = true)) := by
        intro ab habm
        rw [hpoint ab habm, decide_eq_true_eq]
        constructor
        · rintro ⟨-, hm⟩
          exact hm
        · intro hm
          refine ⟨?_, hm⟩
          rcases hm with rfl | rfl
          · exact hC.2.2
          · obtain ⟨v, h1, h2, h3⟩ := hC.2.2
            exact ⟨v, h2, h1, fun hcon => h3 ⟨hcon.2, hcon.1⟩⟩
      rw [List.countP_congr hcong, combinations2_countP _ hnr a b hab]
      rw [if_pos ⟨List.mem_filter.mpr ⟨ha, by simpa using hC.1⟩,
        List.mem_filter.mpr ⟨hb, by simpa using hC.2.1⟩⟩]
    · rw [if_neg hC]
      rw [List.countP_eq_zero]
      intro ab habm
      rw [hpoint ab habm]
      rintro ⟨hex, hm⟩
      apply hC
      have habm2 : (ab.1, ab.2) ∈ combinations2 (nodes.filter (fun id => id.2.1 ≠ 0)) := by
        rw [Prod.mk.eta]
        exact habm
      have hmem2 := combinations2_mem _ ab.1 ab.2 habm2
      have hL1 : ab.1.2.1 ≠ 0 := by
        have := (List.mem_filter.mp hmem2.1).2
        simpa using this
      have hL2 : ab.2.2.1 ≠ 0 := by
        have := (List.mem_filter.mp hmem2.2).2
        simpa using this
      rcases hm with rfl | rfl
      · exact ⟨hL1, hL2, hex⟩
      · obtain ⟨v, h1, h2, h3⟩ := hex
        exact ⟨hL2, hL1, v, h2, h1, fun hcon => h3 ⟨hcon.2, hcon.1⟩⟩
  · intro pr hpr
    unfold discoverPeers at hpr
    obtain ⟨ab, habm, hf⟩ := List.mem_filterMap.mp hpr
    obtain ⟨v, hv1, hv2, hv3, rfl⟩ :=
      (discoverPeers_mem_aux pmapO factorOf ab.1 ab.2 pr).mp hf
    have habm2 : (ab.1, ab.2) ∈ combinations2 (nodes.filter (fun id => id.2.1 ≠ 0)) := by
      rw [Prod.mk.eta]
      exact habm
    have hmem2 := combinations2_mem _ ab.1 ab.2 habm2
    have hL1 : ab.1.2.1 ≠ 0 := by
      have := (List.mem_filter.mp hmem2.1).2
      simpa using this
    have hL2 : ab.2.2.1 ≠ 0 := by
      have := (List.mem_filter.mp hmem2.2).2
      simpa using this
    exact ⟨hL1, hL2, hv3⟩

/-- Witness for claim C7 on the concrete two-target run: the pair
((0,1,0), (1,1,0)) — equal p_value 6, neither a leaf, neither at level 0 —
yields exactly one peer node. -/
theorem claim7_witness :
    (discoverPeers cfgDests cfgPmapO cfgFactorOf).countP
        (fun pr => decide ((pr.src_a = (0, 1, 0) ∧ pr.src_b = (1, 1, 0)) ∨
          (pr.src_a = (1, 1, 0) ∧ pr.src_b = (0, 1, 0)))) =
      if ((0, 1, 0) : GNodeId).2.1 ≠ 0 ∧ ((1, 1, 0) : GNodeId).2.1 ≠ 0 ∧
          (∃ v, cfgPmapO (0, 1, 0) = some v ∧ cfgPmapO (1, 1, 0) = some v ∧
            ¬(v = cfgFactorOf (0, 1, 0) ∧ v = cfgFactorOf (1, 1, 0))) then 1 else 0 :=
  (claim7_peer_discovery cfgDests cfgPmapO cfgFactorOf (by decide)).1
    (0, 1, 0) (1, 1, 0) (by decide) (by decide) (by decide)

instance : IsTotal Nat (fun a b => b ≤ a) :=
  ⟨fun a b => le_total b a⟩

instance : IsTrans Nat (fun a b => b ≤ a) :=
  ⟨fun _ _ _ hab hbc => le_trans hbc hab⟩

theorem findDivisor2_spec : ∀ b n e, findDivisor2 n b = some e →
    n % (e + 2) = 0 ∧ e + 2 ≤ b := by
  intro b
  induction b with
  | zero => intro n e h; simp [findDivisor2] at h
  | succ b ih =>
    intro n e h
    cases b with
    | zero => simp [findDivisor2] at h
    | succ b2 =>
      rw [findDivisor2] at h
      by_cases hc : n % (b2 + 2) = 0
      · rw [if_pos hc] at h
        cases h
        exact ⟨hc, le_refl _⟩
      · rw [if_neg hc] at h
        obtain ⟨h1, h2⟩ := ih n e h
        exact ⟨h1, le_trans h2 (by omega)⟩

theorem findDivisor2_none : ∀ b n, findDivisor2 n b = none ↔
    ∀ d, 2 ≤ d → d ≤ b → n % d ≠ 0 := by
  intro b
  induction b with
  | zero =>
    intro n
    refine iff_of_true rfl ?_
    intro d h2 h0
    omega
  | succ b ih =>
    intro n
    cases b with
    | zero =>
      refine iff_of_true rfl ?_
      intro d h2 h1
      omega
    | succ b2 =>
      rw [findDivisor2]
      by_cases hc : n % (b2 + 2) = 0
      · rw [if_pos hc]
        refine iff_of_false (by simp) ?_
        intro hall
        exact (hall (b2 + 2) (by omega) (le_refl _)) hc
      · rw [if_neg hc]
        rw [ih n]
        constructor
        · intro hall d h2 hd
          rcases Nat.lt_or_ge d (b2 + 2) with hlt | hge
          · exact hall d h2 (by omega)
          · have : d = b2 + 2 := by omega
            rw [this]
            exact hc
        · intro hall d h2 hd
          exact hall d h2 (by omega)

theorem factorLoopF_sound (m : Nat) : ∀ fuel n, 1 ≤ n → n ≤ fuel →
    ∀ fs, factorLoopF m fuel n = some fs →
      fs.prod = n ∧ ∀ f ∈ fs, 2 ≤ f ∧ f ≤ m := by
  intro fuel
  induction fuel with
  | zero => intro n h1 h2; omega
  | succ fuel ih =>
    intro n h1 h2 fs h
    rw [factorLoopF] at h
    by_cases hn1 : n ≤ 1
    · rw [if_pos hn1] at h
      cases h
      refine ⟨by simp only [List.prod_nil]; omega, by simp⟩
    · rw [if_neg hn1] at h
      cases heq : findDivisor2 n m with
      | none => rw [heq] at h; cases h
      | some e =>
        rw [heq] at h
        obtain ⟨fs2, hfs2, rfl⟩ := Option.map_eq_some'.mp h
        obtain ⟨hmod, hle⟩ := findDivisor2_spec m n e heq
        have hdvd : (e + 2) ∣ n := Nat.dvd_of_mod_eq_zero hmod
        have hq1 : 1 ≤ n / (e + 2) := by
          have := Nat.le_of_dvd (by omega) hdvd
          exact Nat.one_le_div_iff (by omega) |>.mpr this
        have hqlt : n / (e + 2) < n := Nat.div_lt_self (by omega) (by omega)
        obtain ⟨hprod, hmem⟩ := ih (n / (e + 2)) hq1 (by omega) fs2 hfs2
        constructor
        · rw [List.prod_cons, hprod]
          exact Nat.mul_div_cancel' hdvd
        · intro f hf
          rcases List.mem_cons.mp hf with rfl | hf2
          · exact ⟨by omega, hle⟩
          · exact hmem f hf2

theorem factorLoopF_none_iff (m : Nat) : ∀ fuel n, 1 ≤ n → n ≤ fuel →
    (factorLoopF m fuel n = none ↔
      ∃ r ∈ residualsF m fuel n, 1 < r ∧ findDivisor2 r m = none) := by
  intro fuel
  induction fuel with
  | zero => intro n h1 h2; omega
  | succ fuel ih =>
    intro n h1 h2
    rw [factorLoopF, residualsF]
    by_cases hn1 : n ≤ 1
    · rw [if_pos hn1, if_pos hn1]
      refine iff_of_false (by simp) ?_
      rintro ⟨r, hr, hcon, -⟩
      simp only [List.mem_singleton] at hr
      omega
    · rw [if_neg hn1, if_neg hn1]
      cases heq : findDivisor2 n m with
      | none =>
        exact iff_of_true rfl ⟨n, List.mem_singleton_self n, by omega, heq⟩
      | some e =>
        obtain ⟨hmod, _⟩ := findDivisor2_spec m n e heq
        have hdvd : (e + 2) ∣ n := Nat.dvd_of_mod_eq_zero hmod
        have hq1 : 1 ≤ n / (e + 2) := by
          have := Nat.le_of_dvd (by omega) hdvd
          exact Nat.one_le_div_iff (by omega) |>.mpr this
        have hqlt : n / (e + 2) < n := Nat.div_lt_self (by omega) (by omega)
        rw [Option.map_eq_none', ih (n / (e + 2)) hq1 (by omega)]
        constructor
        · rintro ⟨r, hr, hx⟩
          exact ⟨r, List.mem_cons_of_mem n hr, hx⟩
        · rintro ⟨r, hr, hx⟩
          rcases List.mem_cons.mp hr with rfl | hr2
          · rw [heq] at hx
            cases hx.2
          · exact ⟨r, hr2, hx⟩

theorem sortDesc_perm (l : List Nat) : (sortDesc l).Perm l :=
  List.perm_insertionSort _ l

theorem sortDesc_sorted (l : List Nat) :
    List.Sorted (fun a b : Nat => b ≤ a) (sortDesc l) :=
  List.sorted_insertionSort _ l

/-- Claim C5: for ratio_sum >= 2 and max_factor >= 2, find_factors_for_sum
returns its factors sorted descending with product equal to ratio_sum and each
factor in [2, max_factor]; it fails exactly when some residual value of the
greedy loop admits no divisor in [2, max_factor]; concretely it maps (18, 5)
to [3, 3, 2] and fails on (17, 5). -/
theorem claim5_factorize_spec :
    (∀ s m : Int, 2 ≤ s → 2 ≤ m →
      (∀ fs, find_factors_for_sum s m = some fs →
        fs.prod = s ∧ (∀ f ∈ fs, 2 ≤ f ∧ f ≤ m) ∧
          List.Sorted (fun a b : Int => b ≤ a) fs) ∧
      (find_factors_for_sum s m = none ↔
        ∃ r ∈ residualsOf m.toNat s.toNat, 1 < r ∧
          ∀ d, 2 ≤ d → d ≤ m.toNat → r % d ≠ 0)) ∧
    find_factors_for_sum 18 5 = some [3, 3, 2] ∧
    find_factors_for_sum 17 5 = none := by
  refine ⟨?_, by decide, by decide⟩
  intro s m hs hm
  have hs1 : ¬ s ≤ 1 := by omega
  have hsnat : 1 ≤ s.toNat := by omega
  constructor
  · intro fs h
    rw [find_factors_for_sum, if_neg hs1] at h
    cases heq : factorLoop m.toNat s.toNat with
    | none => rw [heq] at h; cases h
    | some fs0 =>
      rw [heq] at h
      cases h
      obtain ⟨hprod, hmem⟩ :=
        factorLoopF_sound m.toNat s.toNat s.toNat hsnat (le_refl _) fs0 heq
      refine ⟨?_, ?_, ?_⟩
      · have hlist : List.map Int.ofNat (sortDesc fs0) =
            List.map (Nat.cast : Nat → Int) (sortDesc fs0) := rfl
        rw [hlist, ← Nat.cast_list_prod, (sortDesc_perm fs0).prod_eq, hprod]
        exact Int.toNat_of_nonneg (by omega)
      · intro f hf
        obtain ⟨x, hx, rfl⟩ := List.mem_map.mp hf
        have hx0 : x ∈ fs0 := (sortDesc_perm fs0).mem_iff.mp hx
        obtain ⟨hx2, hle⟩ := hmem x hx0
        constructor
        · exact Int.ofNat_le.mpr hx2
        · have hcast : Int.ofNat x ≤ Int.ofNat m.toNat := Int.ofNat_le.mpr hle
          rwa [show Int.ofNat m.toNat = (m.toNat : Int) from rfl,
            Int.toNat_of_nonneg (by omega)] at hcast
      · exact List.Pairwise.map _ (fun a b hba => Int.ofNat_le.mpr hba)
          (sortDesc_sorted fs0)
  · rw [find_factors_for_sum, if_neg hs1]
    cases heq : factorLoop m.toNat s.toNat with
    | none =>
      have hres := (factorLoopF_none_iff m.toNat s.toNat s.toNat hsnat (le_refl _)).mp heq
      obtain ⟨r, hr, h1r, hnone⟩ := hres
      exact iff_of_true rfl ⟨r, hr, h1r, (findDivisor2_none m.toNat r).mp hnone⟩
    | some fs0 =>
      refine iff_of_false (by simp) ?_
      rintro ⟨r, hr, h1r, hall⟩
      have hnone : findDivisor2 r m.toNat = none := (findDivisor2_none m.toNat r).mpr hall
      have hcon : factorLoop m.toNat s.toNat = none :=
        (factorLoopF_none_iff m.toNat s.toNat s.toNat hsnat (le_refl _)).mpr
          ⟨r, hr, h1r, hnone⟩
      rw [heq] at hcon
      cases hcon

/-- Witness for claim C5 at the concrete input (18, 5) with output [3, 3, 2]. -/
theorem claim5_witness :
    ([3, 3, 2] : List Int).prod = 18 ∧ (∀ f ∈ ([3, 3, 2] : List Int), 2 ≤ f ∧ f ≤ 5) ∧
      List.Sorted (fun a b : Int => b ≤ a) ([3, 3, 2] : List Int) :=
  (claim5_factorize_spec.1 18 5 (by decide) (by decide)).1 [3, 3, 2] (by decide)

/-- Claim C10: find_factors_for_sum applied to any ratio_sum at most 1
(including 1, 0 and negative values) returns the empty factor list and
reports success rather than failure, for every max_factor. -/
theorem claim10_trivial_sum (ratio_sum max_factor : Int) (h : ratio_sum ≤ 1) :
    find_factors_for_sum ratio_sum max_factor = some [] := by
  unfold find_factors_for_sum
  rw [if_pos h]

/-- Witness for claim C10 at the concrete input ratio_sum = -3, max_factor = 7. -/
theorem claim10_witness :
    ((-3 : Int) ≤ 1) ∧ find_factors_for_sum (-3) 7 = some [] :=
  ⟨by decide, claim10_trivial_sum (-3) 7 (by decide)⟩

/-- Claim C8 (refuted): in the permutation sweep, one run raising an error
aborts the remaining sibling runs.  With the sequence of combinations
[1, 0, 2], where only combination 0 raises, the sweep stops at the error:
combination 2 — which on its own succeeds — contributes no result and no
summary of the collected results is produced, refuting the claim that every
sibling combination is still executed and the final summary still produced. -/
theorem claim8_sweep_aborts_on_failure :
    runSweep failOnZero [1, 0, 2] = Except.error () ∧
    failOnZero 2 = Except.ok 2 ∧
    runSweep failOnZero [1, 2] = Except.ok [1, 2] := by
  refine ⟨rfl, rfl, rfl⟩

/-- Claim C1 (refuted): on the concrete two-target configuration, the
sharing-candidate map gives destination (0,1,0) the inter-tree DFMM source
(1,2,0), whose sharing variable is keyed "from_t1_l2k0" (create_inter_key);
the concentration-constraint encoder reaches that key (it does not start
with "from_R_idx", so it takes the DFMM branch) and its parse — which strips
"from_m" and converts the pieces with int() — fails, i.e. Python raises
ValueError, so the encoder does not successfully emit the concentration
constraints for this valid multi-target configuration. -/
theorem claim1_concentration_key_parse_fails :
    Source.dfmm (1, 2, 0) ∈ cfgSources (0, 1, 0) ∧
    interKeyName 1 2 0 ∈ cfgInterKeys (0, 1, 0) ∧
    ("from_R_idx".data).isPrefixOf (interKeyName 1 2 0) = false ∧
    parseConcInterKey (interKeyName 1 2 0) = none := by decide

/-- Claim C3 (refuted): on the concrete two-target configuration, destination
(0,1,0) holds an inter-tree sharing variable from source (1,2,0) (an input
counted by the destination), but _get_outgoing_vars looks the source up under
"from_m1_l2k0" while the dictionary key is "from_t1_l2k0", so the solver
collects no inter-tree destination for (1,2,0): the emitted waste constraint
waste == totalInput - sum(outgoing) omits volumes sent to other trees. -/
theorem claim3_outgoing_misses_inter_volume :
    interKeyName 1 2 0 ∈ cfgInterKeys (0, 1, 0) ∧
    cfgSolverInterDests (1, 2, 0) = [] ∧
    solverInterKeyName 1 2 0 ≠ interKeyName 1 2 0 := by decide

/-- Counterexample to claim C4: for the valid configuration ratios [2,2],
factors [2,2] (all factors at least 2 and product(factors) = 4 = sum(ratios)),
the forest consists of the single childless node (0,0) with p_value 4 while
its level factor is 2, so "p_value equals the factor iff the node has no
children" fails on this forest. -/
theorem claim4_counterexample :
    ([2, 2].sum = [2, 2].prod) ∧
    ¬ (∀ e ∈ build_dfmm_tree [2, 2] [2, 2],
        (p_value [2, 2] (build_dfmm_tree [2, 2] [2, 2]) e.1 = [2, 2].getD e.1.1 0 ↔
          e.2 = [])) := by decide

theorem mem_mkEntries {l n : Nat} {below : List NodeId} {e : NodeId × List NodeId} :
    e ∈ mkEntries l n below ↔ ∃ k, k < n ∧ e = ((l, k), childrenOf below n k) := by
  unfold mkEntries
  rw [List.mem_map]
  constructor
  · rintro ⟨k, hk, rfl⟩
    exact ⟨k, List.mem_range.mp hk, rfl⟩
  · rintro ⟨k, hk, rfl⟩
    exact ⟨k, List.mem_range.mpr hk, rfl⟩

theorem childrenOf_subset {below : List NodeId} {n k : Nat} :
    ∀ c ∈ childrenOf below n k, c ∈ below := by
  intro c hc
  unfold childrenOf at hc
  obtain ⟨p, hp, rfl⟩ := List.mem_map.mp hc
  have hp2 : p ∈ below.enum := List.mem_of_mem_filter hp
  have : p.2 ∈ below.enum.map Prod.snd := List.mem_map_of_mem Prod.snd hp2
  rwa [List.enum_map_snd] at this

theorem mkEntries_keys (l n : Nat) (below : List NodeId) :
    (mkEntries l n below).map (fun e => e.1) = (List.range n).map (fun k => (l, k)) := by
  unfold mkEntries
  rw [List.map_map]
  rfl

theorem buildAux_level_le (factors : List Nat) :
    ∀ l values below, ∀ e ∈ buildAux factors l values below, e.1.1 ≤ l := by
  intro l
  induction l with
  | zero =>
    intro values below e he
    simp only [buildAux, levelEntries] at he
    obtain ⟨k, _, rfl⟩ := mem_mkEntries.mp he
    exact le_refl 0
  | succ l ih =>
    intro values below e he
    simp only [buildAux] at he
    rcases List.mem_append.mp he with h1 | h2
    · simp only [levelEntries] at h1
      obtain ⟨k, _, rfl⟩ := mem_mkEntries.mp h1
      exact le_refl (l + 1)
    · exact le_trans (ih _ _ e h2) (by omega)

theorem buildAux_keys_nodup (factors : List Nat) :
    ∀ l values below, ((buildAux factors l values below).map (fun e => e.1)).Nodup := by
  intro l
  induction l with
  | zero =>
    intro values below
    simp only [buildAux, levelEntries, mkEntries_keys]
    exact List.Nodup.map (fun a b h => by simpa using h) (List.nodup_range _)
  | succ l ih =>
    intro values below
    simp only [buildAux, List.map_append]
    rw [List.nodup_append]
    refine ⟨?_, ih _ _, ?_⟩
    · simp only [levelEntries, mkEntries_keys]
      exact List.Nodup.map (fun a b h => by simpa using h) (List.nodup_range _)
    · intro a ha hb
      simp only [levelEntries, mkEntries_keys, List.mem_map, List.mem_range] at ha
      obtain ⟨k, _, rfl⟩ := ha
      obtain ⟨e, he, heq⟩ := List.mem_map.mp hb
      have := buildAux_level_le factors l _ _ e he
      rw [heq] at this
      omega

theorem buildAux_children (factors : List Nat) :
    ∀ l values below, (∀ b ∈ below, b.1 = l + 1) →
      ∀ e ∈ buildAux factors l values below, ∀ c ∈ e.2,
        c.1 = e.1.1 + 1 ∧
          (c ∈ below ∨ ∃ ch, (c, ch) ∈ buildAux factors l values below) := by
  intro l
  induction l with
  | zero =>
    intro values below hb e he c hc
    simp only [buildAux, levelEntries] at he
    obtain ⟨k, _, rfl⟩ := mem_mkEntries.mp he
    have hcb : c ∈ below := childrenOf_subset c hc
    exact ⟨hb c hcb, Or.inl hcb⟩
  | succ l ih =>
    intro values below hb e he c hc
    simp only [buildAux] at he ⊢
    rcases List.mem_append.mp he with h1 | h2
    · simp only [levelEntries] at h1
      obtain ⟨k, _, rfl⟩ := mem_mkEntries.mp h1
      have hcb : c ∈ below := childrenOf_subset c hc
      exact ⟨hb c hcb, Or.inl hcb⟩
    · have hb2 : ∀ b ∈ (levelEntries factors (l + 1) values below).map (fun e => e.1),
          b.1 = l + 1 := by
        intro b hbm
        simp only [levelEntries, mkEntries_keys, List.mem_map, List.mem_range] at hbm
        obtain ⟨k, _, rfl⟩ := hbm
        rfl
      obtain ⟨hlvl, hor⟩ := ih _ _ hb2 e h2 c hc
      refine ⟨hlvl, Or.inr ?_⟩
      rcases hor with hin | ⟨ch, hch⟩
      · obtain ⟨e2, he2, heq⟩ := List.mem_map.mp hin
        refine ⟨e2.2, List.mem_append_left _ ?_⟩
        rw [← heq, Prod.mk.eta]
        exact he2
      · exact ⟨ch, List.mem_append_right _ hch⟩

theorem buildAux_top_children (factors : List Nat) :
    ∀ l values below, ∀ e ∈ buildAux factors l values below, e.1.1 = l →
      ∀ c ∈ e.2, c ∈ below := by
  intro l
  induction l with
  | zero =>
    intro values below e he _ c hc
    simp only [buildAux, levelEntries] at he
    obtain ⟨k, _, rfl⟩ := mem_mkEntries.mp he
    exact childrenOf_subset c hc
  | succ l ih =>
    intro values below e he hl c hc
    simp only [buildAux] at he
    rcases List.mem_append.mp he with h1 | h2
    · simp only [levelEntries] at h1
      obtain ⟨k, _, rfl⟩ := mem_mkEntries.mp h1
      exact childrenOf_subset c hc
    · have := buildAux_level_le factors l _ _ e h2
      omega

theorem tree_children {ratios factors : List Nat} :
    ∀ e ∈ build_dfmm_tree ratios factors, ∀ c ∈ e.2,
      c.1 = e.1.1 + 1 ∧ ∃ ch, (c, ch) ∈ build_dfmm_tree ratios factors := by
  intro e he c hc
  unfold build_dfmm_tree at he ⊢
  cases hL : factors.length with
  | zero => rw [hL] at he; cases he
  | succ l =>
    rw [hL] at he
    obtain ⟨hlvl, hor⟩ :=
      buildAux_children factors l ratios [] (by intro b hb; cases hb) e he c hc
    rcases hor with h | h
    · cases h
    · exact ⟨hlvl, h⟩

theorem tree_level_lt {ratios factors : List Nat} :
    ∀ e ∈ build_dfmm_tree ratios factors, e.1.1 < factors.length := by
  intro e he
  unfold build_dfmm_tree at he
  cases hL : factors.length with
  | zero => rw [hL] at he; cases he
  | succ l =>
    rw [hL] at he
    have := buildAux_level_le factors l ratios [] e he
    omega

theorem tree_keys_nodup (ratios factors : List Nat) :
    ((build_dfmm_tree ratios factors).map (fun e => e.1)).Nodup := by
  unfold build_dfmm_tree
  cases factors.length with
  | zero => simp
  | succ l => exact buildAux_keys_nodup factors l ratios []

theorem tree_deepest_childless {ratios factors : List Nat} :
    ∀ e ∈ build_dfmm_tree ratios factors, e.1.1 = factors.length - 1 → e.2 = [] := by
  intro e he hl
  unfold build_dfmm_tree at he
  cases hL : factors.length with
  | zero => rw [hL] at he; cases he
  | succ l =>
    rw [hL] at he
    rw [hL] at hl
    have hsub := buildAux_top_children factors l ratios [] e he (by omega)
    rw [List.eq_nil_iff_forall_not_mem]
    intro c hc
    cases hsub c hc

theorem lookupChildren_eq :
    ∀ (T : List (NodeId × List NodeId)), ((T.map (fun e => e.1)).Nodup) →
      ∀ k ch, (k, ch) ∈ T → lookupChildren T k = ch := by
  intro T
  induction T with
  | nil => intro _ k ch h; cases h
  | cons e T ih =>
    intro hnd k ch h
    simp only [List.map_cons, List.nodup_cons] at hnd
    rcases List.mem_cons.mp h with rfl | htail
    · unfold lookupChildren
      rw [List.find?_cons_of_pos _ (by simp)]
    · have hkmem : k ∈ T.map (fun x => x.1) := by
        have := List.mem_map_of_mem (fun x : NodeId × List NodeId => x.1) htail
        simpa using this
      have hne : (e.1 == k) = false := by
        rw [beq_eq_false_iff_ne]
        intro heq
        exact hnd.1 (heq ▸ hkmem)
      unfold lookupChildren
      rw [List.find?_cons_of_neg _ (by simp [hne])]
      exact ih hnd.2 k ch htail

theorem foldr_max_const : ∀ (l : List Nat) (a : Nat), l ≠ [] → (∀ x ∈ l, x = a) →
    l.foldr max 0 = a := by
  intro l
  induction l with
  | nil => intro a h _; cases h rfl
  | cons x t ih =>
    intro a _ hall
    have hx : x = a := hall x (List.mem_cons_self x t)
    cases t with
    | nil => simp [hx]
    | cons y t2 =>
      rw [List.foldr_cons, ih a (by simp) (fun z hz => hall z (List.mem_cons_of_mem x hz)), hx]
      exact Nat.max_self a

theorem drop_eq_getD_cons {factors : List Nat} {l : Nat} (h : l < factors.length) :
    factors.drop l = factors.getD l 0 :: factors.drop (l + 1) := by
  rw [List.drop_eq_getElem_cons h, List.getD_eq_getElem factors 0 h]

theorem getD_mem {factors : List Nat} {l : Nat} (h : l < factors.length) :
    factors.getD l 0 ∈ factors := by
  rw [List.getD_eq_getElem factors 0 h]
  exact List.getElem_mem h

/-- On built trees the P-value recursion is fuel-insensitive and every node of
the tree has P-value equal to the product of the factors from its level down:
children sit exactly one level deeper and share that product, so the
max-over-children recursion collapses. -/
theorem pFuel_eq_prod (ratios factors : List Nat) :
    ∀ fuel, ∀ e ∈ build_dfmm_tree ratios factors,
      pFuel factors (build_dfmm_tree ratios factors) fuel e.1 =
        (factors.drop e.1.1).prod := by
  intro fuel
  induction fuel with
  | zero => intro e _; rfl
  | succ fuel ih =>
    intro e he
    have hmem : (e.1, e.2) ∈ build_dfmm_tree ratios factors := by
      rw [Prod.mk.eta]; exact he
    have hlk : lookupChildren (build_dfmm_tree ratios factors) e.1 = e.2 :=
      lookupChildren_eq _ (tree_keys_nodup ratios factors) e.1 e.2 hmem
    by_cases hch : e.2 = []
    · simp [pFuel, hlk, hch]
    · have hlvl := tree_level_lt e he
      have hne : ¬((e.2).isEmpty = true) := by
        simpa [List.isEmpty_iff] using hch
      rw [pFuel, hlk, if_neg hne]
      have hconst : ∀ x ∈ e.2.map (pFuel factors (build_dfmm_tree ratios factors) fuel),
          x = (factors.drop (e.1.1 + 1)).prod := by
        intro x hx
        obtain ⟨c, hc, rfl⟩ := List.mem_map.mp hx
        obtain ⟨hc1, ch2, hch2⟩ := tree_children e he c hc
        have hih : pFuel factors (build_dfmm_tree ratios factors) fuel c =
            (factors.drop c.1).prod := ih (c, ch2) hch2
        rw [hih, hc1]
      rw [foldr_max_const _ _ (by simp [hch]) hconst, ← List.prod_cons,
        ← drop_eq_getD_cons hlvl]

theorem p_value_eq_prod (ratios factors : List Nat) :
    ∀ e ∈ build_dfmm_tree ratios factors,
      p_value factors (build_dfmm_tree ratios factors) e.1 = (factors.drop e.1.1).prod :=
  fun e he => pFuel_eq_prod ratios factors factors.length e he

theorem one_le_listProd : ∀ (L : List Nat), (∀ x ∈ L, 1 ≤ x) → 1 ≤ L.prod := by
  intro L
  induction L with
  | nil => intro _; exact le_refl 1
  | cons x t ih =>
    intro h
    rw [List.prod_cons]
    have hx := h x (List.mem_cons_self x t)
    have ht := ih (fun z hz => h z (List.mem_cons_of_mem x hz))
    calc 1 = 1 * 1 := by ring
    _ ≤ x * t.prod := Nat.mul_le_mul hx ht

theorem prod_eq_one_nil : ∀ (L : List Nat), (∀ x ∈ L, 2 ≤ x) → L.prod = 1 → L = [] := by
  intro L h hp
  cases L with
  | nil => rfl
  | cons x t =>
    rw [List.prod_cons] at hp
    have hx1 := (mul_eq_one.mp hp).1
    have h2 := h x (List.mem_cons_self x t)
    omega

/-- Claim C6: for every target with product(factors) = sum(ratios) (factors
all at least 2), the P-value the pipeline computes for the level-0 root node
(0,0) — whenever the built forest contains it — equals sum(ratios). -/
theorem claim6_root_p_value (ratios factors : List Nat)
    (hf : ∀ f ∈ factors, 2 ≤ f)
    (hsum : factors.prod = ratios.sum)
    (hroot : ∃ ch, ((0, 0), ch) ∈ build_dfmm_tree ratios factors) :
    p_value factors (build_dfmm_tree ratios factors) (0, 0) = ratios.sum := by
  obtain ⟨ch, hch⟩ := hroot
  have h1 := p_value_eq_prod ratios factors ((0, 0), ch) hch
  have h2 : p_value factors (build_dfmm_tree ratios factors) (0, 0) = factors.prod := by
    simpa using h1
  rw [h2, hsum]

/-- Witness for claim C6 on the configuration ratios [1,8,9], factors [3,3,2]. -/
theorem claim6_witness :
    p_value [3, 3, 2] (build_dfmm_tree [1, 8, 9] [3, 3, 2]) (0, 0) = [1, 8, 9].sum :=
  claim6_root_p_value [1, 8, 9] [3, 3, 2] (by decide) (by decide) ⟨[(1, 0)], by decide⟩

/-- Claim C4 (amended): for every forest built from a valid configuration and
every node in it, p_value is at least the node level factor, and p_value
equals the factor iff the node has no children AND lies at the deepest level
len(factors) - 1 (a childless node above the deepest level has
p_value = prod(factors[level:]) strictly greater than its factor). -/
theorem claim4_p_value_vs_factor (ratios factors : List Nat)
    (hf : ∀ f ∈ factors, 2 ≤ f)
    (hsum : factors.prod = ratios.sum) :
    ∀ e ∈ build_dfmm_tree ratios factors,
      factors.getD e.1.1 0 ≤ p_value factors (build_dfmm_tree ratios factors) e.1 ∧
      (p_value factors (build_dfmm_tree ratios factors) e.1 = factors.getD e.1.1 0 ↔
        (e.2 = [] ∧ e.1.1 = factors.length - 1)) := by
  intro e he
  have hlvl := tree_level_lt e he
  have hp := p_value_eq_prod ratios factors e he
  have hdrop := drop_eq_getD_cons hlvl
  have hrest1 : 1 ≤ (factors.drop (e.1.1 + 1)).prod := by
    apply one_le_listProd
    intro x hx
    have := hf x (List.mem_of_mem_drop hx)
    omega
  have hf2 : 2 ≤ factors.getD e.1.1 0 := hf _ (getD_mem hlvl)
  constructor
  · rw [hp, hdrop, List.prod_cons]
    calc factors.getD e.1.1 0 = factors.getD e.1.1 0 * 1 := by ring
    _ ≤ _ := Nat.mul_le_mul_left _ hrest1
  · constructor
    · intro heq
      rw [hp, hdrop, List.prod_cons] at heq
      have hrest : (factors.drop (e.1.1 + 1)).prod = 1 := by
        apply Nat.eq_of_mul_eq_mul_left (show 0 < factors.getD e.1.1 0 by omega)
        rw [Nat.mul_one]
        exact heq
      have hnil : factors.drop (e.1.1 + 1) = [] :=
        prod_eq_one_nil _ (fun x hx => hf x (List.mem_of_mem_drop hx)) hrest
      have hlen : factors.length ≤ e.1.1 + 1 := List.drop_eq_nil_iff.mp hnil
      have hldeep : e.1.1 = factors.length - 1 := by omega
      exact ⟨tree_deepest_childless e he hldeep, hldeep⟩
    · rintro ⟨-, hldeep⟩
      rw [hp, hdrop, List.prod_cons]
      have hnil : factors.drop (e.1.1 + 1) = [] := by
        rw [List.drop_eq_nil_iff]
        omega
      rw [hnil, List.prod_nil, Nat.mul_one]

/-- Witness for claim C4 on the configuration ratios [1,8,9], factors [3,3,2]
at the deepest node (2,0). -/
theorem claim4_witness :
    [3, 3, 2].getD 2 0 ≤ p_value [3, 3, 2] (build_dfmm_tree [1, 8, 9] [3, 3, 2]) (2, 0) ∧
    (p_value [3, 3, 2] (build_dfmm_tree [1, 8, 9] [3, 3, 2]) (2, 0) = [3, 3, 2].getD 2 0 ↔
      (([] : List NodeId) = [] ∧ 2 = [3, 3, 2].length - 1)) :=
  claim4_p_value_vs_factor [1, 8, 9] [3, 3, 2] (by decide) (by decide) ((2, 0), []) (by decide)

theorem sum_map_mod_le (values : List Nat) (f : Nat) :
    (values.map (fun v => v % f)).sum ≤ values.sum := by
  induction values with
  | nil => simp
  | cons v t ih =>
    simp only [List.map_cons, List.sum_cons]
    have := Nat.mod_le v f
    omega

theorem sum_div_mod (values : List Nat) (f : Nat) :
    f * (values.map (fun v => v / f)).sum + (values.map (fun v => v % f)).sum =
      values.sum := by
  induction values with
  | nil => simp
  | cons v t ih =>
    simp only [List.map_cons, List.sum_cons]
    have h1 := Nat.div_add_mod v f
    have h2 : f * (v / f + (t.map (fun v => v / f)).sum) +
        (v % f + (t.map (fun v => v % f)).sum) =
        (f * (v / f) + v % f) +
          (f * (t.map (fun v => v / f)).sum + (t.map (fun v => v % f)).sum) := by
      ring
    rw [h2, h1, ih]

theorem numNodesAt_le_one {total f : Nat} (hf : 1 ≤ f) (h : total ≤ f) :
    numNodesAt total f ≤ 1 := by
  unfold numNodesAt
  by_cases h0 : 0 < total
  · rw [if_pos h0]
    have hlt : (total + f - 1) / f < 2 := by
      rw [Nat.div_lt_iff_lt_mul (by omega)]
      omega
    omega
  · rw [if_neg h0]
    omega

theorem numNodesAt_le {total f : Nat} : numNodesAt total f ≤ (total + f - 1) / f := by
  unfold numNodesAt
  by_cases h0 : 0 < total
  · rw [if_pos h0]
  · rw [if_neg h0]
    exact Nat.zero_le _

theorem take_one_prod {factors : List Nat} (h : 0 < factors.length) :
    (factors.take 1).prod = factors.getD 0 0 := by
  cases factors with
  | nil => simp at h
  | cons x t => simp

theorem take_succ_prod {factors : List Nat} {l : Nat} (h : l < factors.length) :
    (factors.take (l + 1)).prod = (factors.take l).prod * factors.getD l 0 := by
  rw [List.prod_take_succ factors l h, List.getD_eq_getElem factors 0 h]

/-- Packing arithmetic for one level: if f*a + r + b <= f*P then the a carried
quotients plus the ceil((r+b)/f) new nodes still fit in P. -/
theorem ceil_pack_bound {f P a r b : Nat} (hf : 1 ≤ f)
    (hkey : f * a + r + b ≤ f * P) :
    a + (r + b + f - 1) / f ≤ P := by
  have h3 : (f * a + (r + b + f - 1)) / f = a + (r + b + f - 1) / f :=
    Nat.mul_add_div (by omega) a _
  rw [← h3, Nat.div_le_iff_le_mul_add_pred (by omega)]
  omega

/-- The invariant carried down the build loop: the element sum of the values
still to process plus the number of nodes one level below never exceeds the
product of the factors above (inclusive), so it ends at factor[0] and level 0
gets at most one node. -/
theorem levelStep_bound (factors : List Nat) (l : Nat) (values : List Nat)
    (below : List NodeId) (hl : l + 1 < factors.length)
    (hf1 : 1 ≤ factors.getD (l + 1) 0)
    (hbound : values.sum + below.length ≤ (factors.take (l + 1 + 1)).prod) :
    (values.map (fun v => v / factors.getD (l + 1) 0)).sum +
      levelCount factors (l + 1) values below ≤ (factors.take (l + 1)).prod := by
  have hsdm := sum_div_mod values (factors.getD (l + 1) 0)
  rw [take_succ_prod hl] at hbound
  rw [← hsdm] at hbound
  have hkey : factors.getD (l + 1) 0 *
      (values.map (fun v => v / factors.getD (l + 1) 0)).sum +
      (values.map (fun v => v % factors.getD (l + 1) 0)).sum + below.length ≤
      factors.getD (l + 1) 0 * (factors.take (l + 1)).prod := by
    rw [Nat.mul_comm (factors.getD (l + 1) 0) ((factors.take (l + 1)).prod)]
    exact hbound
  have hceil := ceil_pack_bound hf1 hkey
  have hlc : levelCount factors (l + 1) values below ≤
      ((values.map (fun v => v % factors.getD (l + 1) 0)).sum + below.length +
        factors.getD (l + 1) 0 - 1) / factors.getD (l + 1) 0 := numNodesAt_le
  omega

theorem buildAux_root_count (factors : List Nat) :
    ∀ l values below, l < factors.length → (∀ x ∈ factors, 1 ≤ x) →
      values.sum + below.length ≤ (factors.take (l + 1)).prod →
      (((buildAux factors l values below).filter (fun e => e.1.1 == 0)).length ≤ 1 ∧
        ∀ e ∈ buildAux factors l values below, e.1.1 = 0 → e.1.2 = 0) := by
  intro l
  induction l with
  | zero =>
    intro values below hl hfac hbound
    have hf1 : 1 ≤ factors.getD 0 0 := hfac _ (getD_mem hl)
    have htot : (values.map (fun v => v % factors.getD 0 0)).sum + below.length ≤
        factors.getD 0 0 := by
      have hm := sum_map_mod_le values (factors.getD 0 0)
      have h1p := take_one_prod hl
      simp only [Nat.zero_add] at hbound
      omega
    have hn : levelCount factors 0 values below ≤ 1 := numNodesAt_le_one hf1 htot
    constructor
    · simp only [buildAux, levelEntries]
      have hself : (mkEntries 0 (levelCount factors 0 values below) below).filter
          (fun e => e.1.1 == 0) = mkEntries 0 (levelCount factors 0 values below) below := by
        apply List.filter_eq_self.mpr
        intro e hem
        obtain ⟨k, _, rfl⟩ := mem_mkEntries.mp hem
        rfl
      rw [hself]
      have hlen : (mkEntries 0 (levelCount factors 0 values below) below).length =
          levelCount factors 0 values below := by
        simp [mkEntries]
      omega
    · intro e hem h0
      simp only [buildAux, levelEntries] at hem
      obtain ⟨k, hk, rfl⟩ := mem_mkEntries.mp hem
      simp only
      omega
  | succ l ih =>
    intro values below hl hfac hbound
    have hf1 : 1 ≤ factors.getD (l + 1) 0 := hfac _ (getD_mem hl)
    have hent : (levelEntries factors (l + 1) values below).filter
        (fun e => e.1.1 == 0) = [] := by
      rw [List.filter_eq_nil_iff]
      intro a ha
      simp only [levelEntries] at ha
      obtain ⟨k, _, rfl⟩ := mem_mkEntries.mp ha
      simp
    have hklen : ((levelEntries factors (l + 1) values below).map (fun e => e.1)).length =
        levelCount factors (l + 1) values below := by
      simp [levelEntries, mkEntries]
    have hrec := ih (values.map (fun v => v / factors.getD (l + 1) 0))
      ((levelEntries factors (l + 1) values below).map (fun e => e.1))
      (by omega) hfac
      (by rw [hklen]; exact levelStep_bound factors l values below hl hf1 hbound)
    constructor
    · simp only [buildAux, List.filter_append, List.length_append, hent, List.length_nil]
      omega
    · intro e hem h0
      simp only [buildAux] at hem
      rcases List.mem_append.mp hem with h1 | h2
      · simp only [levelEntries] at h1
        obtain ⟨k, _, rfl⟩ := mem_mkEntries.mp h1
        simp only at h0
        omega
      · exact hrec.2 e h2 h0

/-- Claim C9 (amended): for every valid configuration (non-negative ratios,
all factors at least 2, product(factors) = sum(ratios)), forest construction
creates AT MOST one node at level 0, and any level-0 node is (0,0), so the
root-fixing constraint on (0,0) covers the whole level whenever it is
non-empty (configurations such as ratios [4,0], factors [2,2] produce none). -/
theorem claim9_root_level (ratios factors : List Nat)
    (hf : ∀ x ∈ factors, 2 ≤ x)
    (hsum : factors.prod = ratios.sum) :
    (levelZeroIds (build_dfmm_tree ratios factors)).length ≤ 1 ∧
    ∀ id ∈ levelZeroIds (build_dfmm_tree ratios factors), id = (0, 0) := by
  have hfac1 : ∀ x ∈ factors, 1 ≤ x := by
    intro x hx
    have := hf x hx
    omega
  unfold levelZeroIds build_dfmm_tree
  cases hL : factors.length with
  | zero => simp
  | succ l =>
    have hbound : ratios.sum + ([] : List NodeId).length ≤ (factors.take (l + 1)).prod := by
      rw [← hL, List.take_length factors, hsum]
      simp
    have hcount := buildAux_root_count factors l ratios [] (by omega) hfac1 hbound
    constructor
    · rw [List.filter_map, List.length_map]
      exact hcount.1
    · intro id hid
      rw [List.filter_map] at hid
      obtain ⟨e, he2, rfl⟩ := List.mem_map.mp hid
      have hmem := List.mem_of_mem_filter he2
      have hpred := List.of_mem_filter he2
      simp only [Function.comp] at hpred
      have h0 : e.1.1 = 0 := by simpa using hpred
      have hk := hcount.2 e hmem h0
      have : e.1 = (e.1.1, e.1.2) := rfl
      rw [this, h0, hk]

/-- Witness for claim C9 (amended) on the configuration ratios [1,8,9],
factors [3,3,2]. -/
theorem claim9_witness :
    (levelZeroIds (build_dfmm_tree [1, 8, 9] [3, 3, 2])).length ≤ 1 ∧
    ∀ id ∈ levelZeroIds (build_dfmm_tree [1, 8, 9] [3, 3, 2]), id = (0, 0) :=
  claim9_root_level [1, 8, 9] [3, 3, 2] (by decide) (by decide)

/-- Counterexample to claim C9: for the valid configuration ratios [4,0]
(non-negative), factors [2,2] (product 4 = sum), forest construction creates
no node at all — in particular not exactly one node at level 0. -/
theorem claim9_counterexample :
    ([4, 0].sum = [2, 2].prod) ∧
    build_dfmm_tree [4, 0] [2, 2] = [] ∧
    (levelZeroIds (build_dfmm_tree [4, 0] [2, 2])).length ≠ 1 := by decide

end MTWM
